import Mathlib

/-!
Verification of the evolutionary N-queens program (`ec.py`) from
drc14/N_queen_Evolutionary_Algorithm.

The program is embedded shallowly.  Randomness is modelled by an abstract
stream of naturals: `random.randrange(k)` consumes one stream value `v`
and yields `v % k` (uniform over `[0, k)` when the stream value is
uniform).  The `Queen` class lives in `queen.py`, which is not part of
the sources; every definition taken from it is marked
`Modelled from the spec:` and follows the specification text.
-/

namespace EcPy

/-- Abstract random stream with a cursor, standing for the seeded global
`random` generator of the program. -/
structure RState where
  g : Nat → Nat
  idx : Nat

/-- One call of `random.randrange(bound)`: consume one stream value and
reduce it into `[0, bound)`. -/
def randrange (bound : Nat) (s : RState) : Nat × RState :=
  (s.g s.idx % bound, ⟨s.g, s.idx + 1⟩)

/-- Constant from ec.py line 134. -/
def population_size : Nat := 10

/-- Constant from ec.py line 135. -/
def probability_of_mutation : Nat := 50

/-- Constant from ec.py line 136. -/
def max_iterations : Nat := 10000

/-- Modelled from the spec: `queen.py` is missing from the sources, so the
attack relation follows §4.1: queens in rows `r1`, `r2` with columns
`c1`, `c2` attack each other iff `c1 = c2` or `|r1 - r2| = |c1 - c2|`. -/
def attacks (r1 c1 r2 c2 : Nat) : Bool :=
  c1 == c2 || ((r1 : Int) - (r2 : Int)).natAbs == ((c1 : Int) - (c2 : Int)).natAbs

/-- Modelled from the spec: `Queen.update_valid_queens` of the missing
`queen.py`, per §4.1 — the number of rows whose queen attacks no queen of
any other row. -/
def validQueens (b : List Nat) : Nat :=
  ((List.range b.length).filter (fun r1 =>
    (List.range b.length).all (fun r2 =>
      r2 == r1 || !attacks r1 (b.getD r1 0) r2 (b.getD r2 0)))).length

/-- The gene-copy loop of `permutation` (ec.py lines 82-84):
`for i in range(i0, i0 + k): dst[i] = src[i]`, unrolled on the count `k`. -/
def copyTail (dst src : List Nat) : Nat → Nat → List Nat
  | _, 0 => dst
  | i, k + 1 => copyTail (dst.set i (src.getD i 0)) src (i + 1) k

/-- `permutation` of ec.py (lines 67-89) with the drawn pivot made an
explicit argument: child 1 is a copy of board 1 whose tail from the pivot
on is overwritten with board 2's genes, and symmetrically for child 2. -/
def permutation (board1 board2 : List Nat) (n pivot : Nat) : List Nat × List Nat :=
  (copyTail board1 board2 pivot (n - pivot), copyTail board2 board1 pivot (n - pivot))

/-- `permutation` including its own pivot draw `pivot = random.randrange(n)`
(ec.py line 80). -/
def permutationR (board1 board2 : List Nat) (n : Nat) (s : RState) :
    (List Nat × List Nat) × RState :=
  let pr := randrange n s
  (permutation board1 board2 n pr.1, pr.2)

/-- `mutation` of ec.py (lines 91-98): draw a row, draw a column, overwrite
that row's gene with the column. -/
def mutation (board : List Nat) (n : Nat) (s : RState) : List Nat × RState :=
  let pr := randrange n s
  let cr := randrange n pr.2
  (board.set pr.1 cr.1, cr.2)

/-- The mutation-probability test of ec.py line 166:
`random_number > (100 - probability_of_mutation)`. -/
def mutationTriggered (p roll : Nat) : Bool :=
  decide (100 - p < roll)

/-- The mutation pass of ec.py lines 164-167: for each board in order, roll
`random.randrange(100)` and mutate the board in place when the roll passes
the `mutationTriggered` test. -/
def mutatePass (n : Nat) : List (List Nat) → RState → List (List Nat) × RState
  | [], s => ([], s)
  | b :: rest, s =>
    let roll := randrange 100 s
    if mutationTriggered probability_of_mutation roll.1 then
      let b2 := mutation b n roll.2
      let rest2 := mutatePass n rest b2.2
      (b2.1 :: rest2.1, rest2.2)
    else
      let rest2 := mutatePass n rest roll.2
      (b :: rest2.1, rest2.2)

/-- Descending fitness order used by `population.sort(reverse=True)`.
Modelled from the spec: the comparison method of `Queen` lives in the
missing `queen.py`; §3 states Boards are totally ordered by fitness,
higher first. -/
def fitnessGe (a b : List Nat) : Prop :=
  validQueens b ≤ validQueens a

instance : DecidableRel fitnessGe := fun _ _ => Nat.decLe _ _

instance : IsTotal (List Nat) fitnessGe :=
  ⟨fun a b => Nat.le_total (validQueens b) (validQueens a)⟩

instance : IsTrans (List Nat) fitnessGe :=
  ⟨fun _ _ _ h1 h2 => Nat.le_trans h2 h1⟩

/-- `population.sort(reverse=True)` (ec.py lines 147 and 170): sort the
population so that higher fitness comes first. -/
def sortPop (pop : List (List Nat)) : List (List Nat) :=
  List.insertionSort fitnessGe pop

/-- Ec.py lines 158-167: recombine `population[0]` and `population[1]`,
append both children, then run the mutation pass over the whole enlarged
population.  This is the iteration state just before the sort-and-truncate
of lines 170-172. -/
def preTruncation (pop : List (List Nat)) (n : Nat) (s : RState) :
    List (List Nat) × RState :=
  let pr := permutationR (pop.getD 0 []) (pop.getD 1 []) n s
  mutatePass n (pop ++ [pr.1.1, pr.1.2]) pr.2

/-- One full iteration of the loop body (ec.py lines 158-172): recombine,
append, mutate, sort, truncate to `population_size`. -/
def stepPop (pop : List (List Nat)) (n : Nat) (s : RState) :
    List (List Nat) × RState :=
  let pre := preTruncation pop n s
  ((sortPop pre.1).take population_size, pre.2)

/-- The main loop of ec.py lines 153-172: iterate `stepPop` while the best
board's fitness differs from `n` and fewer than `max_iterations` iterations
have run.  Returns the final population, random state and iteration count. -/
def runLoop (n : Nat) (pop : List (List Nat)) (s : RState) (iter : Nat) :
    List (List Nat) × RState × Nat :=
  if h : validQueens (pop.getD 0 []) ≠ n ∧ iter < max_iterations then
    runLoop n (stepPop pop n s).1 (stepPop pop n s).2 (iter + 1)
  else (pop, s, iter)
termination_by max_iterations - iter
decreasing_by
  simp only [max_iterations] at *
  omega

/-- Modelled from the spec: the `Queen(n)` constructor of the missing
`queen.py`, per §3 — each of the `n` entries drawn uniformly from `[0, n)`. -/
def newBoard (n : Nat) : Nat → RState → List Nat × RState
  | 0, s => ([], s)
  | k + 1, s =>
    let c := randrange n s
    let rest := newBoard n k c.2
    (c.1 :: rest.1, rest.2)

/-- Population initialisation of ec.py lines 142-144: `count` fresh random
boards in order. -/
def newPopulation (n : Nat) : Nat → RState → List (List Nat) × RState
  | 0, s => ([], s)
  | k + 1, s =>
    let b := newBoard n n s
    let rest := newPopulation n k b.2
    (b.1 :: rest.1, rest.2)

/-- A decimal digit's value, for the integer-literal parser below. -/
def digit? (c : Char) : Option Nat :=
  if 48 ≤ c.toNat ∧ c.toNat ≤ 57 then some (c.toNat - 48) else none

/-- A non-empty all-digit character list read as a natural number. -/
def natLit? : List Char → Option Nat
  | [] => none
  | [c] => digit? c
  | c :: rest =>
    match digit? c, natLit? rest with
    | some d, some m => some (d * 10 ^ rest.length + m)
    | _, _ => none

/-- Python's `int(str)` conversion: an optional sign followed by digits
parses to the signed value, anything else raises (returns `none`). -/
def pyInt (s : String) : Option Int :=
  match s.data with
  | '-' :: rest => (natLit? rest).map (fun m => -(m : Int))
  | '+' :: rest => (natLit? rest).map (fun m => (m : Int))
  | l => (natLit? l).map (fun m => (m : Int))

/-- Observable result of a program run: the three early exits and the final
report of ec.py lines 111-121, 126-129 and 174-176.  `valueError` stands for
the uncaught exception raised by a failing `int()` conversion. -/
inductive Outcome where
  | usageError
  | valueError
  | sizeError
  | report (iterations : Nat) (seed : Int) (best : List Nat) (fitness : Nat)
deriving DecidableEq

/-- The whole program (ec.py lines 111-176).  `argv` is `sys.argv` (program
name included), `now` is `int(time())`, `g` is the random stream obtained
from seeding.  `int(...)` is embedded as `pyInt`, with `none`
standing for the raised `ValueError`. -/
def runProgram (argv : List String) (now : Int) (g : Nat → Nat) : Outcome :=
  if argv.length ≠ 2 ∧ argv.length ≠ 3 then .usageError
  else
    match pyInt (argv.getD 1 "") with
    | none => .valueError
    | some nI =>
      if nI < 4 then .sizeError
      else
        match (if argv.length = 3 then pyInt (argv.getD 2 "") else some now) with
        | none => .valueError
        | some seed =>
          let n := nI.toNat
          let ip := newPopulation n population_size ⟨g, 0⟩
          let pop1 := sortPop ip.1
          let res := runLoop n pop1 ip.2 0
          .report res.2.2 seed (res.1.getD 0 []) (validQueens (res.1.getD 0 []))

/-- A concrete random stream for sanity instances: every draw is 0. -/
def zeroRng : RState := ⟨fun _ => 0, 0⟩

/-! ### Helper lemmas -/

theorem length_copyTail (src : List Nat) :
    ∀ (k i : Nat) (dst : List Nat), (copyTail dst src i k).length = dst.length := by
  intro k
  induction k with
  | zero => intro i dst; rfl
  | succ k ih =>
    intro i dst
    simp only [copyTail, ih, List.length_set]

theorem copyTail_getD_of_lt (src : List Nat) :
    ∀ (k i : Nat) (dst : List Nat) (j : Nat), j < i →
      (copyTail dst src i k).getD j 0 = dst.getD j 0 := by
  intro k
  induction k with
  | zero => intro i dst j _; rfl
  | succ k ih =>
    intro i dst j hj
    simp only [copyTail]
    rw [ih (i + 1) _ j (Nat.lt_succ_of_lt hj)]
    simp only [List.getD_eq_getElem?_getD]
    rw [List.getElem?_set_ne (Nat.ne_of_gt hj)]

theorem copyTail_getD_of_ge (src : List Nat) :
    ∀ (k i : Nat) (dst : List Nat) (j : Nat), i ≤ j → j < i + k → j < dst.length →
      (copyTail dst src i k).getD j 0 = src.getD j 0 := by
  intro k
  induction k with
  | zero => intro i dst j h1 h2 _; omega
  | succ k ih =>
    intro i dst j h1 h2 hlen
    simp only [copyTail]
    rcases Nat.eq_or_lt_of_le h1 with heq | hlt
    · subst heq
      rw [copyTail_getD_of_lt src k (i + 1) _ i (Nat.lt_succ_self i)]
      simp only [List.getD_eq_getElem?_getD]
      rw [List.getElem?_set_self' ]
      simp [List.getElem?_eq_getElem hlen]
    · exact ih (i + 1) _ j hlt (by omega) (by simpa [List.length_set] using hlen)

theorem mem_copyTail (src : List Nat) :
    ∀ (k i : Nat) (dst : List Nat), i + k ≤ src.length →
      ∀ x ∈ copyTail dst src i k, x ∈ dst ∨ x ∈ src := by
  intro k
  induction k with
  | zero => intro i dst _ x hx; exact Or.inl hx
  | succ k ih =>
    intro i dst hk x hx
    have hi : i < src.length := by omega
    rcases ih (i + 1) _ (by omega) x hx with hset | hsrc
    · rcases List.mem_or_eq_of_mem_set hset with hdst | hval
      · exact Or.inl hdst
      · refine Or.inr ?_
        rw [hval, List.getD_eq_getElem src 0 hi]
        exact List.getElem_mem hi
    · exact Or.inr hsrc

theorem set_getD_self (b : List Nat) :
    ∀ i : Nat, b.set i (b.getD i 0) = b := by
  intro i
  by_cases h : i < b.length
  · apply List.ext_getElem
    · simp [List.length_set]
    · intro j hj hj2
      by_cases hij : i = j
      · subst hij
        rw [List.getElem_set_self, List.getD_eq_getElem b 0 h]
      · rw [List.getElem_set_ne hij]
  · rw [List.set_eq_of_length_le (Nat.le_of_not_lt h)]

theorem length_filter_eq_length_iff {α : Type} (p : α → Bool) :
    ∀ l : List α, (l.filter p).length = l.length ↔ ∀ a ∈ l, p a := by
  intro l
  induction l with
  | nil => simp
  | cons a t ih =>
    by_cases h : p a
    · simp [List.filter_cons, h, ih]
    · simp only [List.filter_cons, h, Bool.false_eq_true, if_false, List.length_cons]
      constructor
      · intro hlen
        have := List.length_filter_le p t
        omega
      · intro hall
        exact absurd (hall a (List.mem_cons_self a t)) (by simp [h])

theorem mutatePass_length (n : Nat) :
    ∀ (l : List (List Nat)) (s : RState), (mutatePass n l s).1.length = l.length := by
  intro l
  induction l with
  | nil => intro s; rfl
  | cons b rest ih =>
    intro s
    simp only [mutatePass]
    split
    · simp [ih]
    · simp [ih]

theorem mutatePass_getD (n : Nat) :
    ∀ (l : List (List Nat)) (s : RState) (j : Nat), j < l.length →
      ∃ s' : RState,
        (mutatePass n l s).1.getD j [] =
          if mutationTriggered probability_of_mutation (randrange 100 s').1 then
            (mutation (l.getD j []) n (randrange 100 s').2).1
          else l.getD j [] := by
  intro l
  induction l with
  | nil => intro s j hj; simp at hj
  | cons b rest ih =>
    intro s j hj
    match j with
    | 0 =>
      refine ⟨s, ?_⟩
      simp only [mutatePass]
      split
      · next htrig => simp [htrig]
      · next htrig => simp [htrig]
    | j + 1 =>
      have hj' : j < rest.length := by simpa using hj
      simp only [mutatePass]
      split
      · obtain ⟨s', hs'⟩ := ih (mutation b n (randrange 100 s).2).2 j hj'
        exact ⟨s', by simpa using hs'⟩
      · obtain ⟨s', hs'⟩ := ih (randrange 100 s).2 j hj'
        exact ⟨s', by simpa using hs'⟩

theorem copyTail_full (dst src : List Nat) (hd : dst.length = src.length) :
    copyTail dst src 0 src.length = src := by
  apply List.ext_getElem
  · rw [length_copyTail]; exact hd
  · intro j h1 h2
    have hj : j < dst.length := by rwa [length_copyTail] at h1
    have hg := copyTail_getD_of_ge src src.length 0 dst j (Nat.zero_le j)
      (by omega) hj
    rw [List.getD_eq_getElem _ 0 h1, List.getD_eq_getElem src 0 h2] at hg
    exact hg

/-! ### Claims -/

/-- C1 (code bug): ec.py line 166 tests `random_number > (100 -
probability_of_mutation)`, so of the 100 equally likely rolls `0..99` only
49 — not 50 — trigger a mutation at the default setting
`probability_of_mutation = 50`: the per-board mutation probability is
49/100, not 50/100 as the docstring and the spec state. -/
theorem mutation_probability_off_by_one :
    ((List.range 100).filter (mutationTriggered probability_of_mutation)).length = 49 ∧
      probability_of_mutation = 50 := by
  constructor
  · decide
  · rfl

/-- C2: for parents of equal size `n` and pivot `p`, child 1 carries
parent 1's genes below the pivot and parent 2's from the pivot on, child 2
is the exact complement; at `p = 0` the children equal the swapped parents
and at `p = n` they equal the parents. -/
theorem recombination_complete (A B : List Nat) (n p : Nat)
    (hA : A.length = n) (hB : B.length = n) (hp : p ≤ n) :
    (∀ i, i < p →
      (permutation A B n p).1.getD i 0 = A.getD i 0 ∧
      (permutation A B n p).2.getD i 0 = B.getD i 0) ∧
    (∀ i, p ≤ i → i < n →
      (permutation A B n p).1.getD i 0 = B.getD i 0 ∧
      (permutation A B n p).2.getD i 0 = A.getD i 0) ∧
    (permutation A B n 0).1 = B ∧ (permutation A B n 0).2 = A ∧
    (permutation A B n n).1 = A ∧ (permutation A B n n).2 = B := by
  subst hA
  refine ⟨?_, ?_, ?_, ?_, ?_, ?_⟩
  · intro i hi
    exact ⟨copyTail_getD_of_lt B _ p A i hi, copyTail_getD_of_lt A _ p B i hi⟩
  · intro i h1 h2
    constructor
    · exact copyTail_getD_of_ge B _ p A i h1 (by omega) h2
    · exact copyTail_getD_of_ge A _ p B i h1 (by omega) (by omega)
  · show copyTail A B 0 (A.length - 0) = B
    rw [Nat.sub_zero, ← hB]
    exact copyTail_full A B hB.symm
  · show copyTail B A 0 (A.length - 0) = A
    rw [Nat.sub_zero]
    exact copyTail_full B A hB
  · show copyTail A B A.length (A.length - A.length) = A
    rw [Nat.sub_self]
    rfl
  · show copyTail B A A.length (A.length - A.length) = B
    rw [Nat.sub_self]
    rfl

/-- C2 witness: the theorem applied to the parents `[0,1,2,3]`,
`[3,2,1,0]` with `n = 4` and pivot `2`. -/
theorem recombination_complete_witness :
    (([0, 1, 2, 3] : List Nat).length = 4 ∧ ([3, 2, 1, 0] : List Nat).length = 4 ∧
      2 ≤ 4) ∧
    ((∀ i, i < 2 →
      (permutation [0, 1, 2, 3] [3, 2, 1, 0] 4 2).1.getD i 0 = ([0, 1, 2, 3] : List Nat).getD i 0 ∧
      (permutation [0, 1, 2, 3] [3, 2, 1, 0] 4 2).2.getD i 0 = ([3, 2, 1, 0] : List Nat).getD i 0) ∧
    (∀ i, 2 ≤ i → i < 4 →
      (permutation [0, 1, 2, 3] [3, 2, 1, 0] 4 2).1.getD i 0 = ([3, 2, 1, 0] : List Nat).getD i 0 ∧
      (permutation [0, 1, 2, 3] [3, 2, 1, 0] 4 2).2.getD i 0 = ([0, 1, 2, 3] : List Nat).getD i 0) ∧
    (permutation [0, 1, 2, 3] [3, 2, 1, 0] 4 0).1 = [3, 2, 1, 0] ∧
    (permutation [0, 1, 2, 3] [3, 2, 1, 0] 4 0).2 = [0, 1, 2, 3] ∧
    (permutation [0, 1, 2, 3] [3, 2, 1, 0] 4 4).1 = [0, 1, 2, 3] ∧
    (permutation [0, 1, 2, 3] [3, 2, 1, 0] 4 4).2 = [3, 2, 1, 0]) :=
  ⟨⟨rfl, rfl, by decide⟩,
    recombination_complete [0, 1, 2, 3] [3, 2, 1, 0] 4 2 rfl rfl (by decide)⟩

/-- C6: one application of the mutation operator keeps the board length,
leaves every position other than the drawn row unchanged, and when the
drawn column equals the queen already in the drawn row the board is
entirely unchanged (a legal no-op). -/
theorem mutation_locality (b : List Nat) (n : Nat) (s : RState) :
    (mutation b n s).1.length = b.length ∧
    (∀ j, j ≠ (randrange n s).1 → (mutation b n s).1.getD j 0 = b.getD j 0) ∧
    ((randrange n (randrange n s).2).1 = b.getD (randrange n s).1 0 →
      (mutation b n s).1 = b) := by
  refine ⟨?_, ?_, ?_⟩
  · simp [mutation, List.length_set]
  · intro j hj
    simp only [mutation, List.getD_eq_getElem?_getD]
    rw [List.getElem?_set_ne (fun h => hj h.symm)]
  · intro h
    show b.set (randrange n s).1 (randrange n (randrange n s).2).1 = b
    rw [h]
    exact set_getD_self b _

/-- C7: recombination children and mutation results of well-formed boards
(length `n`, every entry below `n`) are again well-formed. -/
theorem wellformed_preserved (b1 b2 b : List Nat) (n p : Nat) (s : RState)
    (h1l : b1.length = n) (h1m : ∀ x ∈ b1, x < n)
    (h2l : b2.length = n) (h2m : ∀ x ∈ b2, x < n)
    (hbl : b.length = n) (hbm : ∀ x ∈ b, x < n)
    (hp : p ≤ n) (hn : 0 < n) :
    ((permutation b1 b2 n p).1.length = n ∧ ∀ x ∈ (permutation b1 b2 n p).1, x < n) ∧
    ((permutation b1 b2 n p).2.length = n ∧ ∀ x ∈ (permutation b1 b2 n p).2, x < n) ∧
    ((mutation b n s).1.length = n ∧ ∀ x ∈ (mutation b n s).1, x < n) := by
  refine ⟨⟨?_, ?_⟩, ⟨?_, ?_⟩, ?_, ?_⟩
  · rw [show (permutation b1 b2 n p).1 = copyTail b1 b2 p (n - p) from rfl,
      length_copyTail, h1l]
  · intro x hx
    rcases mem_copyTail b2 (n - p) p b1 (by omega) x hx with h | h
    · exact h1m x h
    · exact h2m x h
  · rw [show (permutation b1 b2 n p).2 = copyTail b2 b1 p (n - p) from rfl,
      length_copyTail, h2l]
  · intro x hx
    rcases mem_copyTail b1 (n - p) p b2 (by omega) x hx with h | h
    · exact h2m x h
    · exact h1m x h
  · show (b.set (randrange n s).1 (randrange n (randrange n s).2).1).length = n
    rw [List.length_set, hbl]
  · intro x hx
    rcases List.mem_or_eq_of_mem_set hx with h | h
    · exact hbm x h
    · rw [h]
      exact Nat.mod_lt _ hn

/-- C7 witness: the theorem applied to the boards `[0,1,2,3]`,
`[3,2,1,0]`, `[1,1,1,1]` with `n = 4`, pivot `2` and the all-zero random
stream. -/
theorem wellformed_preserved_witness :
    (([0, 1, 2, 3] : List Nat).length = 4 ∧ (∀ x ∈ ([0, 1, 2, 3] : List Nat), x < 4) ∧
     ([3, 2, 1, 0] : List Nat).length = 4 ∧ (∀ x ∈ ([3, 2, 1, 0] : List Nat), x < 4) ∧
     ([1, 1, 1, 1] : List Nat).length = 4 ∧ (∀ x ∈ ([1, 1, 1, 1] : List Nat), x < 4) ∧
     2 ≤ 4 ∧ 0 < 4) ∧
    (((permutation [0, 1, 2, 3] [3, 2, 1, 0] 4 2).1.length = 4 ∧
        ∀ x ∈ (permutation [0, 1, 2, 3] [3, 2, 1, 0] 4 2).1, x < 4) ∧
     ((permutation [0, 1, 2, 3] [3, 2, 1, 0] 4 2).2.length = 4 ∧
        ∀ x ∈ (permutation [0, 1, 2, 3] [3, 2, 1, 0] 4 2).2, x < 4) ∧
     ((mutation [1, 1, 1, 1] 4 zeroRng).1.length = 4 ∧
        ∀ x ∈ (mutation [1, 1, 1, 1] 4 zeroRng).1, x < 4)) :=
  ⟨⟨rfl, by decide, rfl, by decide, rfl, by decide, by decide, by decide⟩,
    wellformed_preserved [0, 1, 2, 3] [3, 2, 1, 0] [1, 1, 1, 1] 4 2 zeroRng
      rfl (by decide) rfl (by decide) rfl (by decide) (by decide) (by decide)⟩

/-- C3: from a resting population of length `population_size`, one loop
iteration reaches length `population_size + 2` after the children are
appended and mutated, and after the sort and the truncating slice the
population again has length `population_size` and is sorted in descending
order of fitness. -/
theorem population_invariant (pop : List (List Nat)) (n : Nat) (s : RState)
    (h : pop.length = population_size) :
    (preTruncation pop n s).1.length = population_size + 2 ∧
    (stepPop pop n s).1.length = population_size ∧
    List.Sorted fitnessGe (stepPop pop n s).1 := by
  have hpre : (preTruncation pop n s).1.length = population_size + 2 := by
    simp only [preTruncation]
    rw [mutatePass_length]
    simp [h]
  refine ⟨hpre, ?_, ?_⟩
  · show ((sortPop (preTruncation pop n s).1).take population_size).length
      = population_size
    rw [List.length_take, sortPop, List.length_insertionSort, hpre]
    omega
  · exact List.Pairwise.sublist (List.take_sublist _ _)
      (List.sorted_insertionSort fitnessGe _)

/-- C3 witness: the theorem applied to a population of ten all-zero
4-boards with the all-zero random stream. -/
theorem population_invariant_witness :
    (List.replicate 10 ([0, 0, 0, 0] : List Nat)).length = population_size ∧
    ((preTruncation (List.replicate 10 [0, 0, 0, 0]) 4 zeroRng).1.length
        = population_size + 2 ∧
     (stepPop (List.replicate 10 [0, 0, 0, 0]) 4 zeroRng).1.length
        = population_size ∧
     List.Sorted fitnessGe (stepPop (List.replicate 10 [0, 0, 0, 0]) 4 zeroRng).1) :=
  ⟨by decide,
    population_invariant (List.replicate 10 [0, 0, 0, 0]) 4 zeroRng (by decide)⟩

/-- C5: the loop body recombines exactly `population[0]` and
`population[1]`, appends both children, and runs the mutation pass over the
whole enlarged population: each of the `population_size + 2` boards,
children included, is independently rolled and either mutated or left as
is. -/
theorem elitist_selection (pop : List (List Nat)) (n : Nat) (s : RState) :
    preTruncation pop n s =
      mutatePass n
        (pop ++ [(permutation (pop.getD 0 []) (pop.getD 1 []) n (randrange n s).1).1,
                 (permutation (pop.getD 0 []) (pop.getD 1 []) n (randrange n s).1).2])
        (randrange n s).2 ∧
    (preTruncation pop n s).1.length = pop.length + 2 ∧
    (∀ j, j < pop.length + 2 → ∃ s' : RState,
      (preTruncation pop n s).1.getD j [] =
        if mutationTriggered probability_of_mutation (randrange 100 s').1 then
          (mutation
            ((pop ++ [(permutation (pop.getD 0 []) (pop.getD 1 []) n (randrange n s).1).1,
                      (permutation (pop.getD 0 []) (pop.getD 1 []) n (randrange n s).1).2]).getD j [])
            n (randrange 100 s').2).1
        else
          (pop ++ [(permutation (pop.getD 0 []) (pop.getD 1 []) n (randrange n s).1).1,
                   (permutation (pop.getD 0 []) (pop.getD 1 []) n (randrange n s).1).2]).getD j []) := by
  refine ⟨rfl, ?_, ?_⟩
  · simp only [preTruncation, permutationR]
    rw [mutatePass_length]
    simp
  · intro j hj
    exact mutatePass_getD n
      (pop ++ [(permutation (pop.getD 0 []) (pop.getD 1 []) n (randrange n s).1).1,
               (permutation (pop.getD 0 []) (pop.getD 1 []) n (randrange n s).1).2])
      (randrange n s).2 j (by simp; omega)

/-- C8: fitness is between 0 and the board length, and it is maximal
exactly when no two queens share a column or a diagonal. -/
theorem fitness_bounds (b : List Nat) :
    0 ≤ validQueens b ∧ validQueens b ≤ b.length ∧
    (validQueens b = b.length ↔
      ∀ r1, r1 < b.length → ∀ r2, r2 < b.length → r1 ≠ r2 →
        ¬(b.getD r1 0 = b.getD r2 0 ∨
          ((r1 : Int) - (r2 : Int)).natAbs
            = ((b.getD r1 0 : Int) - (b.getD r2 0 : Int)).natAbs)) := by
  refine ⟨Nat.zero_le _, ?_, ?_⟩
  · calc validQueens b ≤ (List.range b.length).length := List.length_filter_le _ _
      _ = b.length := List.length_range b.length
  · have h := length_filter_eq_length_iff
      (fun r1 => (List.range b.length).all (fun r2 =>
        r2 == r1 || !attacks r1 (b.getD r1 0) r2 (b.getD r2 0)))
      (List.range b.length)
    rw [List.length_range] at h
    rw [validQueens, h]
    simp only [List.all_eq_true, List.mem_range, Bool.or_eq_true, beq_iff_eq,
      Bool.not_eq_true', attacks, Bool.or_eq_false_iff, beq_eq_false_iff_ne, ne_eq]
    constructor
    · intro hall r1 h1 r2 h2 hne hor
      rcases hall r1 h1 r2 h2 with heq | ⟨hc, hd⟩
      · exact hne heq.symm
      · rcases hor with h' | h'
        · exact hc h'
        · exact hd h'
    · intro hall r1 h1 r2 h2
      by_cases he : r2 = r1
      · exact Or.inl he
      · refine Or.inr ⟨?_, ?_⟩
        · intro hc
          exact hall r1 h1 r2 h2 (fun e => he e.symm) (Or.inl hc)
        · intro hd
          exact hall r1 h1 r2 h2 (fun e => he e.symm) (Or.inr hd)

theorem runLoop_exit_aux (n : Nat) :
    ∀ (fb : Nat) (pop : List (List Nat)) (s : RState) (iter : Nat),
      max_iterations - iter ≤ fb → iter ≤ max_iterations →
      (runLoop n pop s iter).2.2 ≤ max_iterations ∧
      (validQueens ((runLoop n pop s iter).1.getD 0 []) = n ∨
        (runLoop n pop s iter).2.2 = max_iterations) := by
  intro fb
  induction fb with
  | zero =>
    intro pop s iter hfb hle
    by_cases hc : validQueens (pop.getD 0 []) ≠ n ∧ iter < max_iterations
    · exact absurd hc.2 (by omega)
    · rw [runLoop, dif_neg hc]
      show iter ≤ max_iterations ∧
        (validQueens (pop.getD 0 []) = n ∨ iter = max_iterations)
      refine ⟨hle, Or.inr ?_⟩
      omega
  | succ fb ih =>
    intro pop s iter hfb hle
    by_cases hc : validQueens (pop.getD 0 []) ≠ n ∧ iter < max_iterations
    · have h2 := hc.2
      rw [runLoop, dif_pos hc]
      exact ih _ _ (iter + 1) (by omega) (by omega)
    · rw [runLoop, dif_neg hc]
      show iter ≤ max_iterations ∧
        (validQueens (pop.getD 0 []) = n ∨ iter = max_iterations)
      refine ⟨hle, ?_⟩
      by_cases hq : validQueens (pop.getD 0 []) = n
      · exact Or.inl hq
      · have hit : ¬iter < max_iterations := fun hlt => hc ⟨hq, hlt⟩
        exact Or.inr (by omega)

/-- C4: started at iteration 0, the loop always exits with an iteration
count of at most `max_iterations`, and on exit either the best board's
fitness equals `n` or the count equals `max_iterations`. -/
theorem loop_terminates (n : Nat) (pop : List (List Nat)) (s : RState) :
    (runLoop n pop s 0).2.2 ≤ max_iterations ∧
    (validQueens ((runLoop n pop s 0).1.getD 0 []) = n ∨
      (runLoop n pop s 0).2.2 = max_iterations) :=
  runLoop_exit_aux n max_iterations pop s 0 (by omega) (by omega)

/-- C9: a wrong argument count yields the usage exit and a parsed board
size below 4 yields the size-error exit; in both cases the outcome is not a
report. -/
theorem validation_before_report (argv : List String) (now : Int) (g : Nat → Nat) :
    (argv.length ≠ 2 ∧ argv.length ≠ 3 →
      runProgram argv now g = Outcome.usageError ∧
      ∀ i sd b f, runProgram argv now g ≠ Outcome.report i sd b f) ∧
    (∀ k : Int, (argv.length = 2 ∨ argv.length = 3) →
      pyInt (argv.getD 1 "") = some k → k < 4 →
      runProgram argv now g = Outcome.sizeError ∧
      ∀ i sd b f, runProgram argv now g ≠ Outcome.report i sd b f) := by
  constructor
  · intro hc
    have he : runProgram argv now g = Outcome.usageError := by
      simp only [runProgram]
      rw [if_pos hc]
    refine ⟨he, fun i sd b f h => ?_⟩
    rw [he] at h
    exact Outcome.noConfusion h
  · intro k hlen hparse hk
    have hnc : ¬(argv.length ≠ 2 ∧ argv.length ≠ 3) := by
      rcases hlen with h | h <;> simp [h]
    have he : runProgram argv now g = Outcome.sizeError := by
      simp only [runProgram]
      rw [if_neg hnc, hparse]
      simp [hk]
    refine ⟨he, fun i sd b f h => ?_⟩
    rw [he] at h
    exact Outcome.noConfusion h

/-- C9 witness: no argument gives the usage error; board size 3 gives the
size error. -/
theorem validation_before_report_witness :
    runProgram ["ec.py"] 0 (fun _ => 0) = Outcome.usageError ∧
    runProgram ["ec.py", "3"] 0 (fun _ => 0) = Outcome.sizeError :=
  ⟨((validation_before_report ["ec.py"] 0 (fun _ => 0)).1 (by decide)).1,
   ((validation_before_report ["ec.py", "3"] 0 (fun _ => 0)).2 3 (Or.inl rfl)
      (by decide) (by decide)).1⟩

/-- C10: a board-size argument that is no integer literal makes the run end
in the uncaught conversion error, as does a non-integer seed argument once
the board size passed its check; this outcome is neither the usage message
nor the size message. -/
theorem conversion_not_validated (argv : List String) (now : Int) (g : Nat → Nat) :
    ((argv.length = 2 ∨ argv.length = 3) → pyInt (argv.getD 1 "") = none →
      runProgram argv now g = Outcome.valueError) ∧
    (∀ k : Int, argv.length = 3 → pyInt (argv.getD 1 "") = some k → ¬k < 4 →
      pyInt (argv.getD 2 "") = none →
      runProgram argv now g = Outcome.valueError) ∧
    Outcome.valueError ≠ Outcome.usageError ∧
    Outcome.valueError ≠ Outcome.sizeError := by
  refine ⟨?_, ?_, by decide, by decide⟩
  · intro hlen hparse
    have hnc : ¬(argv.length ≠ 2 ∧ argv.length ≠ 3) := by
      rcases hlen with h | h <;> simp [h]
    simp only [runProgram]
    rw [if_neg hnc, hparse]
  · intro k h3 hparse hk hseed
    have hnc : ¬(argv.length ≠ 2 ∧ argv.length ≠ 3) := by
      simp [h3]
    simp only [runProgram]
    rw [if_neg hnc, hparse]
    simp only [if_neg hk]
    rw [if_pos h3, hseed]

/-- C10 witness: `ec.py abc` and `ec.py 8 xyz` both end in the conversion
error. -/
theorem conversion_not_validated_witness :
    runProgram ["ec.py", "abc"] 0 (fun _ => 0) = Outcome.valueError ∧
    runProgram ["ec.py", "8", "xyz"] 0 (fun _ => 0) = Outcome.valueError :=
  ⟨(conversion_not_validated ["ec.py", "abc"] 0 (fun _ => 0)).1 (Or.inl rfl)
      (by decide),
   (conversion_not_validated ["ec.py", "8", "xyz"] 0 (fun _ => 0)).2.1 8 rfl
      (by decide) (by decide) (by decide)⟩

/-- C4 witness: the theorem applied to board size 4, the empty population
and the all-zero stream. -/
theorem loop_terminates_witness :
    (runLoop 4 [] zeroRng 0).2.2 ≤ max_iterations :=
  (loop_terminates 4 [] zeroRng).1

/-- C5 witness: the theorem applied to the empty population, board size 4
and the all-zero stream. -/
theorem elitist_selection_witness :
    (preTruncation [] 4 zeroRng).1.length = ([] : List (List Nat)).length + 2 :=
  (elitist_selection [] 4 zeroRng).2.1

/-- C6 witness: the theorem applied to the board `[1,1,1,1]`, size 4 and
the all-zero stream. -/
theorem mutation_locality_witness :
    (mutation [1, 1, 1, 1] 4 zeroRng).1.length = ([1, 1, 1, 1] : List Nat).length :=
  (mutation_locality [1, 1, 1, 1] 4 zeroRng).1

/-- C8 witness: the theorem applied to the known 4-queens solution
`[1,3,0,2]`. -/
theorem fitness_bounds_witness :
    validQueens [1, 3, 0, 2] ≤ ([1, 3, 0, 2] : List Nat).length :=
  (fitness_bounds [1, 3, 0, 2]).2.1

end EcPy
